import Mathlib

/-!
# AI-Calender-Self: verification of the calendar core and UI data transforms

Shallow embedding of the repository's code.  Timestamps are modelled as
natural numbers counting minutes since the epoch (UTC); a calendar day is
the number `t / 1440`.  JavaScript `Array.prototype.sort` (stable) is
modelled by the insertion sort `sortLe` below.

The backend conversational core (Time Resolver, Tool Registry, Skill
Registry, Dialogue Orchestrator, Conflict/Availability Analyzer) is not
present in the repository sources; the definitions for those components
are modelled from the specification and are marked `Modelled from the
spec:` in their doc comments.  Everything else is translated from the
TypeScript sources.
-/

/-- Stable insertion of `a` into `l`, used to model JavaScript's stable
`Array.prototype.sort` with a comparator. -/
def insertLe {α : Type} (le : α → α → Bool) (a : α) : List α → List α
  | [] => [a]
  | b :: l => if le a b then a :: b :: l else b :: insertLe le a l

/-- Stable insertion sort modelling `Array.prototype.sort(cmp)`. -/
def sortLe {α : Type} (le : α → α → Bool) : List α → List α
  | [] => []
  | a :: l => insertLe le a (sortLe le l)

/-! ## Civil date arithmetic

Models the JavaScript `Date` computations used by the frontend: day-of-month
counts, day numbers of civil dates (proleptic Gregorian), and `getDay`
weekdays (0 = Sunday).  Day 0 is 0001-01-01, a Monday. -/

/-- Gregorian leap-year rule, as applied by JavaScript `Date`. -/
def isLeapYear (year : Nat) : Bool :=
  (year % 4 == 0 && year % 100 != 0) || year % 400 == 0

/-- `getDaysInMonth(year, month)` from `MonthView`: the number of days of the
0-based `month`, computed in the source as `new Date(year, month+1, 0).getDate()`. -/
def getDaysInMonth (year month : Nat) : Nat :=
  if month = 1 then (if isLeapYear year then 29 else 28)
  else if month = 3 ∨ month = 5 ∨ month = 8 ∨ month = 10 then 30
  else 31

/-- Days from 0001-01-01 to `year`-01-01 (proleptic Gregorian, `year ≥ 1`). -/
def daysBeforeYear (year : Nat) : Nat :=
  365 * (year - 1) + (year - 1) / 4 - (year - 1) / 100 + (year - 1) / 400

/-- Days from `year`-01-01 to the first of the 0-based `month`. -/
def daysBeforeMonth (year month : Nat) : Nat :=
  (List.range month).foldl (fun acc i => acc + getDaysInMonth year i) 0

/-- Day number of the civil date `year`-`month`-`day` (month 0-based, day
1-based); day 0 is 0001-01-01. -/
def dayNumber (year month day : Nat) : Nat :=
  daysBeforeYear year + daysBeforeMonth year month + (day - 1)

/-- JavaScript `Date.prototype.getDay` on a civil day number: 0 = Sunday.
Day 0 (0001-01-01) is a Monday, hence the offset. -/
def dayOfWeek (n : Nat) : Nat := (n + 1) % 7

/-- `getFirstDayOfMonth(year, month)` from `MonthView`: weekday of the first
of the month, `0` = Sunday. -/
def getFirstDayOfMonth (year month : Nat) : Nat :=
  dayOfWeek (dayNumber year month 1)

/-! ## Frontend data model and `groupEventsByDay` (`App.tsx`) -/

/-- `CalendarEvent` from the frontend type declarations.  `start_time` and
`end_time` are ISO-8601 timestamps modelled as minutes since the epoch (UTC). -/
structure CalendarEvent where
  id : String
  title : String
  start_time : Nat
  end_time : Nat
  description : Option String := none
  location : Option String := none
  deriving DecidableEq

/-- The grouping key `new Date(e.start_time).toISOString().split('T')[0]`:
the UTC calendar day of the event's start. -/
def dateKey (e : CalendarEvent) : Nat := e.start_time / 1440

/-- One entry of the `DayEvents[]` produced by `groupEventsByDay`; the
locale/clock rendering fields (`displayDate`, `isToday`, `isTomorrow`) are
presentation only and outside the embedding. -/
structure DayGroup where
  date : Nat
  events : List CalendarEvent
  deriving DecidableEq

/-- The comparator `(a, b) => new Date(a.start_time).getTime() - new Date(b.start_time).getTime()`. -/
def startTimeLe (a b : CalendarEvent) : Bool := decide (a.start_time ≤ b.start_time)

/-- The key comparator `([a], [b]) => a.localeCompare(b)`; on equal-length
ISO date strings lexicographic order is chronological order. -/
def natLeB (a b : Nat) : Bool := decide (a ≤ b)

/-- `groupEventsByDay` from `App.tsx`: group events into a `Map` keyed by
UTC day (per-key lists in input order, modelled by `filter`), sort the
entries by key, and sort each day's events by start time. -/
def groupEventsByDay (events : List CalendarEvent) : List DayGroup :=
  let keys := (events.map dateKey).dedup
  let sortedKeys := sortLe natLeB keys
  sortedKeys.map fun k =>
    { date := k,
      events := sortLe startTimeLe (events.filter (fun e => dateKey e == k)) }

/-! ## `MonthView` calendar grid (`calendarDays` `useMemo`) -/

/-- The string produced by `formatDateKey(year, month, day)`:
`"${year}-${month+1}-${day}"` with zero padding, modelled structurally
(the printed month is 1-based). -/
structure DateKey where
  year : Nat
  month : Nat
  day : Nat
  deriving DecidableEq

def formatDateKey (year month day : Nat) : DateKey :=
  { year := year, month := month + 1, day := day }

/-- One cell of the month grid built by the `calendarDays` `useMemo`. -/
structure CalCell where
  date : Nat
  dateKey : DateKey
  events : List CalendarEvent
  isCurrentMonth : Bool
  deriving DecidableEq

/-- `calendarDays` from `MonthView`: trailing days of the previous month
aligning the first row to a Monday-start week, days 1..daysInMonth of the
displayed month, then leading days of the next month, filling a fixed
6×7 = 42-cell grid.  `evMap` models `eventsByDate.get(dateKey) || []`.
The source loop `for (i = prevMonthDays-1; i >= 0; i--) day = daysInPrevMonth - i`
is written as an ascending map with `day = daysInPrevMonth - prevMonthDays + 1 + j`. -/
def calendarDays (year month : Nat) (evMap : DateKey → List CalendarEvent) : List CalCell :=
  let daysInMonth := getDaysInMonth year month
  let firstDayOfWeek := getFirstDayOfMonth year month
  let prevMonthDays := if firstDayOfWeek = 0 then 6 else firstDayOfWeek - 1
  let prevMonth := if month = 0 then 11 else month - 1
  let prevYear := if month = 0 then year - 1 else year
  let daysInPrevMonth := getDaysInMonth prevYear prevMonth
  let prevCells := (List.range prevMonthDays).map fun j =>
    let day := daysInPrevMonth - prevMonthDays + 1 + j
    { date := day, dateKey := formatDateKey prevYear prevMonth day,
      events := evMap (formatDateKey prevYear prevMonth day),
      isCurrentMonth := false : CalCell }
  let curCells := (List.range daysInMonth).map fun j =>
    { date := j + 1, dateKey := formatDateKey year month (j + 1),
      events := evMap (formatDateKey year month (j + 1)),
      isCurrentMonth := true : CalCell }
  let remainingCells := 42 - (prevCells.length + curCells.length)
  let nextMonth := if month = 11 then 0 else month + 1
  let nextYear := if month = 11 then year + 1 else year
  let nextCells := (List.range remainingCells).map fun j =>
    { date := j + 1, dateKey := formatDateKey nextYear nextMonth (j + 1),
      events := evMap (formatDateKey nextYear nextMonth (j + 1)),
      isCurrentMonth := false : CalCell }
  prevCells ++ curCells ++ nextCells

/-- The `prevMonthDays` count of `calendarDays`: trailing days of the
previous month shown before day 1 (Monday-start conversion of `getDay`). -/
def prevMonthDaysOf (year month : Nat) : Nat :=
  if getFirstDayOfMonth year month = 0 then 6 else getFirstDayOfMonth year month - 1

/-- The previous month (0-based) displayed in the leading cells. -/
def prevMonthOf (month : Nat) : Nat := if month = 0 then 11 else month - 1

/-- The year of the previous month. -/
def prevYearOf (year month : Nat) : Nat := if month = 0 then year - 1 else year

/-- The next month (0-based) displayed in the trailing cells. -/
def nextMonthOf (month : Nat) : Nat := if month = 11 then 0 else month + 1

/-- The year of the next month. -/
def nextYearOf (year month : Nat) : Nat := if month = 11 then year + 1 else year

/-- The `j`-th leading cell (previous month) of the grid. -/
def prevCellOf (year month : Nat) (evMap : DateKey → List CalendarEvent) (j : Nat) : CalCell :=
  let day := getDaysInMonth (prevYearOf year month) (prevMonthOf month)
      - prevMonthDaysOf year month + 1 + j
  { date := day,
    dateKey := formatDateKey (prevYearOf year month) (prevMonthOf month) day,
    events := evMap (formatDateKey (prevYearOf year month) (prevMonthOf month) day),
    isCurrentMonth := false }

/-- The cell of day `j + 1` of the displayed month. -/
def curCellOf (year month : Nat) (evMap : DateKey → List CalendarEvent) (j : Nat) : CalCell :=
  { date := j + 1,
    dateKey := formatDateKey year month (j + 1),
    events := evMap (formatDateKey year month (j + 1)),
    isCurrentMonth := true }

/-- The `j`-th trailing cell (next month) of the grid. -/
def nextCellOf (year month : Nat) (evMap : DateKey → List CalendarEvent) (j : Nat) : CalCell :=
  { date := j + 1,
    dateKey := formatDateKey (nextYearOf year month) (nextMonthOf month) (j + 1),
    events := evMap (formatDateKey (nextYearOf year month) (nextMonthOf month) (j + 1)),
    isCurrentMonth := false }

/-! ## Streaming chat consumer (`useAI` hook, `sendMessage` SSE loop)

The reducer that the frontend applies to each parsed SSE event.  The
`unknown` payloads (`result`, `data`) are modelled as strings. -/

/-- `ToolCallResult` from the `useAI` hook. -/
structure ToolCallResult where
  tool : String
  success : Bool
  result : String
  message : String
  deriving DecidableEq

/-- `SkillStep` from the `useAI` hook (`params` is an opaque payload). -/
structure SkillStep where
  tool_name : String
  params : String
  result : String
  success : Bool
  deriving DecidableEq

/-- `SkillResult` from the `useAI` hook. -/
structure SkillResult where
  skill : String
  success : Bool
  message : String
  data : String
  steps : List SkillStep
  deriving DecidableEq

/-- Message roles of the chat transcript. -/
inductive Role where
  | user
  | assistant
  | tool
  | skill
  deriving DecidableEq

/-- `ChatMessage` from the `useAI` hook. -/
structure ChatMessage where
  role : Role
  content : String
  toolCall : Option ToolCallResult := none
  skillResult : Option SkillResult := none
  deriving DecidableEq

/-- A parsed SSE `data:` line (the tagged union switched on `parsed.type`). -/
inductive SSEvent where
  | text (content : String)
  | tool_call (tc : ToolCallResult)
  | skill_start (skill : String)
  | skill_result (sr : SkillResult)
  deriving DecidableEq

/-- The mutable state of the `sendMessage` read loop: the rendered message
list plus `assistantContent`, `currentToolCall`, `currentSkillResult`. -/
structure StreamState where
  messages : List ChatMessage
  assistantContent : String
  currentToolCall : Option ToolCallResult := none
  currentSkillResult : Option SkillResult := none
  deriving DecidableEq

/-- The `setMessages` updater used on a `text` event: if the last message is
an assistant message with no tool/skill attachment, replace its content,
otherwise append a fresh assistant message. -/
def updateLastAssistant (msgs : List ChatMessage) (content : String) : List ChatMessage :=
  match msgs.getLast? with
  | some last =>
    if last.role = Role.assistant ∧ last.toolCall = none ∧ last.skillResult = none then
      msgs.dropLast ++ [{ last with content := content }]
    else
      msgs ++ [{ role := Role.assistant, content := content }]
  | none => msgs ++ [{ role := Role.assistant, content := content }]

/-- One iteration of the `switch (parsed.type)` statement of `sendMessage`. -/
def streamStep (s : StreamState) (e : SSEvent) : StreamState :=
  match e with
  | SSEvent.text c =>
    let newContent :=
      if s.currentToolCall.isSome || s.currentSkillResult.isSome then c
      else s.assistantContent ++ c
    { messages := updateLastAssistant s.messages newContent,
      assistantContent := newContent,
      currentToolCall :=
        if s.currentToolCall.isSome || s.currentSkillResult.isSome then none
        else s.currentToolCall,
      currentSkillResult :=
        if s.currentToolCall.isSome || s.currentSkillResult.isSome then none
        else s.currentSkillResult }
  | SSEvent.tool_call tc =>
    { s with currentToolCall := some tc,
             messages := s.messages
               ++ [{ role := Role.tool, content := "Used " ++ tc.tool,
                     toolCall := some tc }] }
  | SSEvent.skill_start _ => s
  | SSEvent.skill_result sr =>
    { s with currentSkillResult := some sr,
             messages := s.messages
               ++ [{ role := Role.skill, content := sr.message,
                     skillResult := some sr }] }

/-! ## Backend core, modelled from the spec

The FastAPI backend (tool registry, skill registry, orchestrator, analyzer,
time resolver, in-memory store) is referenced by the frontend and the
README/SKILL.md but its sources are not in the repository; the definitions
below are modelled from the specification. -/

/-- Modelled from the spec: the error taxonomy of §7 (the backend error
classes are not in the repository sources). -/
inductive ApiError where
  | ValidationError
  | NotFoundError
  | ResolutionError
  | TimeoutError
  | UpstreamError
  deriving DecidableEq

/-- Modelled from the spec: the in-memory Calendar Store (the backend
`database.py` is not in the repository sources). -/
structure Store where
  events : List CalendarEvent
  deriving DecidableEq

/-- Modelled from the spec: the end time resolved by the `create_event`
tool handler (missing from the sources; SKILL.md §Usage Guidelines: if no
end time and no duration is resolvable, assume a 1-hour = 60-minute
duration). -/
def resolveEventEnd (start : Nat) (endOpt durationOpt : Option Nat) : Nat :=
  match endOpt, durationOpt with
  | some e, _ => e
  | none, some d => start + d
  | none, none => start + 60

/-- Modelled from the spec: the `create_event` tool handler (missing from
the sources): build the event, defaulting the end time, and append it to
the store. -/
def createEvent (st : Store) (id title : String) (start : Nat)
    (endOpt durationOpt : Option Nat) : CalendarEvent × Store :=
  let e : CalendarEvent :=
    { id := id, title := title, start_time := start,
      end_time := resolveEventEnd start endOpt durationOpt }
  (e, { events := st.events ++ [e] })

/-- Modelled from the spec: the `delete_event` tool handler (missing from
the sources): remove the event if the id exists, otherwise fail with
`NotFoundError`. -/
def deleteEvent (st : Store) (id : String) : Except ApiError Store :=
  if st.events.any (fun e => e.id == id) then
    Except.ok { events := st.events.filter (fun e => !(e.id == id)) }
  else
    Except.error ApiError.NotFoundError

/-- Modelled from the spec: the Analyzer's overlap test (§4.5, missing from
the sources): `a.start < b.end AND b.start < a.end`. -/
def eventsOverlap (a b : CalendarEvent) : Bool :=
  decide (a.start_time < b.end_time) && decide (b.start_time < a.end_time)

/-- Modelled from the spec: `detect_conflicts` (missing from the sources):
all ordered pairs of distinct positions that overlap. -/
def detectConflicts : List CalendarEvent → List (CalendarEvent × CalendarEvent)
  | [] => []
  | e :: rest =>
    (rest.filter (fun f => eventsOverlap e f)).map (fun f => (e, f))
      ++ detectConflicts rest

/-- A free slot `{start, end}` returned by `find_free_slots` (`stop` models
the reserved field name `end`). -/
structure Slot where
  start : Nat
  stop : Nat
  deriving DecidableEq

/-- Modelled from the spec: the gap scan of `find_free_slots` (§4.5, missing
from the sources).  `cursor` is the start of the current gap of the query
range; each event advances it to the end of the busy region seen so far, and
a gap of at least `duration` before an event (or the range end) yields the
slot `{start := gap_start, stop := gap_start + duration}`. -/
def scanGaps (duration rangeStop : Nat) : Nat → List CalendarEvent → List Slot
  | cursor, [] =>
    if cursor + duration ≤ rangeStop then [{ start := cursor, stop := cursor + duration }]
    else []
  | cursor, e :: rest =>
    let tail := scanGaps duration rangeStop (max cursor e.end_time) rest
    if cursor + duration ≤ e.start_time then
      { start := cursor, stop := cursor + duration } :: tail
    else tail

/-- Modelled from the spec: `find_free_slots` (missing from the sources):
sort the events of the range by start time and scan the gaps, including the
gap before the first event and after the last. -/
def findFreeSlots (rangeStart rangeStop duration : Nat)
    (events : List CalendarEvent) : List Slot :=
  scanGaps duration rangeStop rangeStart (sortLe startTimeLe events)

/-- Modelled from the spec: the Time Resolver's ambiguity policy (§4.1,
missing from the sources): an undisambiguated weekday name resolves to the
nearest occurrence of `target` (a `getDay` weekday, `0` = Sunday) strictly
after the reference day. -/
def nextWeekdayOccurrence (refDay target : Nat) : Nat :=
  refDay + (if (target + 7 - dayOfWeek refDay) % 7 = 0 then 7
            else (target + 7 - dayOfWeek refDay) % 7)

/-- Modelled from the spec: one action of a model pass interpreted by the
Dialogue Orchestrator (§4.4, missing from the sources). -/
inductive TurnAction where
  | text (content : String)
  | tool (tc : ToolCallResult)
  | skill (sr : SkillResult)
  deriving DecidableEq

/-- The `TurnEvent` variants of §6. -/
inductive TurnEvent where
  | text (content : String)
  | tool_call (tc : ToolCallResult)
  | skill_start (skill : String)
  | skill_result (sr : SkillResult)
  | done
  deriving DecidableEq

/-- Modelled from the spec: the Orchestrator's event stream for one turn
(§4.4/§6, missing from the sources): each action is emitted as soon as it is
known, in order, and the turn terminates with a single `done` event. -/
def emitTurn : List TurnAction → List TurnEvent
  | [] => [TurnEvent.done]
  | TurnAction.text c :: rest => TurnEvent.text c :: emitTurn rest
  | TurnAction.tool tc :: rest => TurnEvent.tool_call tc :: emitTurn rest
  | TurnAction.skill sr :: rest =>
    TurnEvent.skill_start sr.skill :: TurnEvent.skill_result sr :: emitTurn rest

/-- Modelled from the spec: the per-step failure policy of a skill (§4.3,
missing from the sources). -/
inductive StepPolicy where
  | abort
  | cont
  deriving DecidableEq

/-- Modelled from the spec: one executed step of a skill plan; `ok` is the
outcome of running the step's tool. -/
structure PlanStep where
  tool : String
  policy : StepPolicy
  ok : Bool
  deriving DecidableEq

/-- Modelled from the spec: sequential execution of a skill's step plan
(§4.3, missing from the sources): a failing `abort` step stops the skill
with the attempted steps recorded; a failing `cont` step is recorded and
execution proceeds.  Returns the `steps` record and the overall success. -/
def runSteps : List PlanStep → List PlanStep × Bool
  | [] => ([], true)
  | s :: rest =>
    if s.ok then
      let r := runSteps rest
      (s :: r.1, r.2)
    else
      match s.policy with
      | StepPolicy.abort => ([s], false)
      | StepPolicy.cont =>
        let r := runSteps rest
        (s :: r.1, r.2)

/-- First busy event of the spec's `find_free_slots` example (09:00–10:00). -/
def exBusy1 : CalendarEvent :=
  { id := "1", title := "a", start_time := 540, end_time := 600 }

/-- Second busy event of the spec's `find_free_slots` example (11:00–12:00). -/
def exBusy2 : CalendarEvent :=
  { id := "2", title := "b", start_time := 660, end_time := 720 }

/-- A store holding one event with id "e1", used as the C7 witness input. -/
def exStore : Store :=
  { events := [{ id := "e1", title := "Meeting", start_time := 600, end_time := 660 }] }

/-- A `continue`-policy step that succeeds, for the C8 witness. -/
def exStep1 : PlanStep := { tool := "find_free_slots", policy := StepPolicy.cont, ok := true }

/-- An `abort`-policy step that fails, for the C8 witness. -/
def exStep2 : PlanStep := { tool := "create_event", policy := StepPolicy.abort, ok := false }

/-- A step after the failure that must never be attempted, for the C8 witness. -/
def exStep3 : PlanStep := { tool := "send_notification", policy := StepPolicy.abort, ok := true }

/-! ## Theorems -/

theorem insertLe_perm {α : Type} (le : α → α → Bool) (a : α) (l : List α) :
    (insertLe le a l).Perm (a :: l) := by
  induction l with
  | nil => simp [insertLe]
  | cons b l ih =>
    simp only [insertLe]
    split
    · exact List.Perm.refl _
    · exact ((ih.cons b).trans (List.Perm.swap a b l))

theorem sortLe_perm {α : Type} (le : α → α → Bool) (l : List α) :
    (sortLe le l).Perm l := by
  induction l with
  | nil => simp [sortLe]
  | cons a l ih =>
    exact (insertLe_perm le a (sortLe le l)).trans (ih.cons a)

theorem mem_sortLe {α : Type} {le : α → α → Bool} {a : α} {l : List α} :
    a ∈ sortLe le l ↔ a ∈ l :=
  (sortLe_perm le l).mem_iff

theorem pairwise_insertLe {α : Type} (le : α → α → Bool)
    (htrans : ∀ a b c, le a b = true → le b c = true → le a c = true)
    (htot : ∀ a b, le a b = true ∨ le b a = true)
    (a : α) (l : List α) (h : l.Pairwise (fun x y => le x y = true)) :
    (insertLe le a l).Pairwise (fun x y => le x y = true) := by
  induction l with
  | nil => simp [insertLe]
  | cons b l ih =>
    rcases h with _ | ⟨hb, hl⟩
    simp only [insertLe]
    split
    · rename_i hab
      refine List.Pairwise.cons ?_ (List.Pairwise.cons hb hl)
      intro x hx
      rcases List.mem_cons.mp hx with rfl | hx
      · exact hab
      · exact htrans a b x hab (hb x hx)
    · rename_i hab
      have hba : le b a = true := by
        rcases htot a b with h1 | h1
        · exact absurd h1 hab
        · exact h1
      refine List.Pairwise.cons ?_ (ih hl)
      intro x hx
      have hx2 : x ∈ a :: l := (insertLe_perm le a l).mem_iff.mp hx
      rcases List.mem_cons.mp hx2 with rfl | h2
      · exact hba
      · exact hb x h2

theorem pairwise_sortLe {α : Type} (le : α → α → Bool)
    (htrans : ∀ a b c, le a b = true → le b c = true → le a c = true)
    (htot : ∀ a b, le a b = true ∨ le b a = true)
    (l : List α) :
    (sortLe le l).Pairwise (fun x y => le x y = true) := by
  induction l with
  | nil => simp [sortLe]
  | cons a l ih => exact pairwise_insertLe le htrans htot a (sortLe le l) ih

/-- 2024-01-01 was a Monday. -/
theorem dayOfWeek_2024_jan1 : dayOfWeek (dayNumber 2024 0 1) = 1 := by decide

/-- 2024-01-10 was a Wednesday. -/
theorem dayOfWeek_2024_jan10 : dayOfWeek (dayNumber 2024 0 10) = 3 := by decide

theorem flatten_filter_perm {α : Type} (key : α → Nat) :
    ∀ (keys : List Nat) (l : List α), keys.Nodup → (∀ a ∈ l, key a ∈ keys) →
    ((keys.map (fun k => l.filter (fun a => key a == k))).flatten).Perm l := by
  intro keys
  induction keys with
  | nil =>
    intro l _ hcov
    cases l with
    | nil => simp
    | cons a l => exact absurd (hcov a (by simp)) (by simp)
  | cons k ks ih =>
    intro l hnd hcov
    simp only [List.map_cons, List.flatten_cons]
    have hknotin : k ∉ ks := (List.nodup_cons.mp hnd).1
    have hrw : ∀ k' ∈ ks, l.filter (fun a => key a == k')
        = (l.filter (fun a => !(key a == k))).filter (fun a => key a == k') := by
      intro k' hk'
      rw [List.filter_filter]
      refine (List.filter_congr ?_)
      intro a _
      have hkne : k' ≠ k := fun h => hknotin (h ▸ hk')
      by_cases hkk : key a = k
      · simp [hkk, Ne.symm hkne]
      · simp [hkk]
    have hmapeq : ks.map (fun k' => l.filter (fun a => key a == k'))
        = ks.map (fun k' => (l.filter (fun a => !(key a == k))).filter (fun a => key a == k')) :=
      List.map_congr_left hrw
    rw [hmapeq]
    have hcov' : ∀ a ∈ l.filter (fun a => !(key a == k)), key a ∈ ks := by
      intro a ha
      have hmem := List.mem_of_mem_filter ha
      have hne : (key a == k) = false := by
        have := List.of_mem_filter ha
        simpa using this
      rcases List.mem_cons.mp (hcov a hmem) with h | h
      · simp [h] at hne
      · exact h
    have hperm := ih (l.filter (fun a => !(key a == k))) (List.nodup_cons.mp hnd).2 hcov'
    exact (List.Perm.append_left _ hperm).trans
      (List.filter_append_perm (fun a => key a == k) l)

theorem startTimeLe_trans : ∀ a b c, startTimeLe a b = true → startTimeLe b c = true →
    startTimeLe a c = true := by
  intro a b c hab hbc
  simp only [startTimeLe, decide_eq_true_eq] at *
  omega

theorem startTimeLe_total : ∀ a b, startTimeLe a b = true ∨ startTimeLe b a = true := by
  intro a b
  simp only [startTimeLe, decide_eq_true_eq]
  omega

theorem natLeB_trans : ∀ a b c : Nat, natLeB a b = true → natLeB b c = true →
    natLeB a c = true := by
  intro a b c hab hbc
  simp only [natLeB, decide_eq_true_eq] at *
  omega

theorem natLeB_total : ∀ a b : Nat, natLeB a b = true ∨ natLeB b a = true := by
  intro a b
  simp only [natLeB, decide_eq_true_eq]
  omega

/-- **C9.** `groupEventsByDay` partitions its input: the concatenation of the
produced groups is a permutation of the input events, every event sits in the
group keyed by the UTC date of its `start_time`, the group keys are distinct
and in ascending date order, and each group's events are in ascending order
of `start_time`. -/
theorem groupEventsByDay_spec (events : List CalendarEvent) :
    ((groupEventsByDay events).map DayGroup.events).flatten.Perm events
    ∧ (∀ g ∈ groupEventsByDay events, ∀ e ∈ g.events, dateKey e = g.date)
    ∧ ((groupEventsByDay events).map DayGroup.date).Nodup
    ∧ ((groupEventsByDay events).map DayGroup.date).Pairwise (· ≤ ·)
    ∧ (∀ g ∈ groupEventsByDay events,
        g.events.Pairwise (fun a b => a.start_time ≤ b.start_time)) := by
  have hmapdate : (groupEventsByDay events).map DayGroup.date
      = sortLe natLeB ((events.map dateKey).dedup) := by
    simp only [groupEventsByDay, List.map_map]
    exact List.map_id'' (fun k => rfl) _
  have hkeysnd : (sortLe natLeB ((events.map dateKey).dedup)).Nodup :=
    ((sortLe_perm natLeB _).nodup_iff).mpr (List.nodup_dedup _)
  have hcov : ∀ e ∈ events, dateKey e ∈ sortLe natLeB ((events.map dateKey).dedup) := by
    intro e he
    exact (sortLe_perm natLeB _).mem_iff.mpr
      (List.mem_dedup.mpr (List.mem_map_of_mem dateKey he))
  refine ⟨?_, ?_, ?_, ?_, ?_⟩
  · have hforall : List.Forall₂ List.Perm
        ((groupEventsByDay events).map DayGroup.events)
        ((sortLe natLeB ((events.map dateKey).dedup)).map
          (fun k => events.filter (fun e => dateKey e == k))) := by
      simp only [groupEventsByDay, List.map_map]
      rw [List.forall₂_map_left_iff, List.forall₂_map_right_iff]
      exact List.forall₂_same.mpr fun k _ => sortLe_perm startTimeLe _
    exact (List.Perm.flatten_congr hforall).trans
      (flatten_filter_perm dateKey _ events hkeysnd hcov)
  · intro g hg e he
    simp only [groupEventsByDay, List.mem_map] at hg
    obtain ⟨k, _, rfl⟩ := hg
    have he' : e ∈ events.filter (fun e => dateKey e == k) := mem_sortLe.mp he
    have := List.of_mem_filter he'
    simpa using this
  · rw [hmapdate]; exact hkeysnd
  · rw [hmapdate]
    exact (pairwise_sortLe natLeB natLeB_trans natLeB_total _).imp
      (fun h => by simpa [natLeB] using h)
  · intro g hg
    simp only [groupEventsByDay, List.mem_map] at hg
    obtain ⟨k, _, rfl⟩ := hg
    exact (pairwise_sortLe startTimeLe startTimeLe_trans startTimeLe_total _).imp
      (fun h => by simpa [startTimeLe] using h)

theorem getDaysInMonth_le (year month : Nat) : getDaysInMonth year month ≤ 31 := by
  unfold getDaysInMonth
  split
  · split <;> omega
  · split <;> omega

theorem getFirstDayOfMonth_lt (year month : Nat) : getFirstDayOfMonth year month < 7 :=
  Nat.mod_lt _ (by omega)

/-- `calendarDays` is the three blocks of cells in order. -/
theorem calendarDays_eq (year month : Nat) (evMap : DateKey → List CalendarEvent) :
    calendarDays year month evMap
      = (List.range (prevMonthDaysOf year month)).map (prevCellOf year month evMap)
        ++ (List.range (getDaysInMonth year month)).map (curCellOf year month evMap)
        ++ (List.range (42 - (prevMonthDaysOf year month + getDaysInMonth year month))).map
            (nextCellOf year month evMap) := by
  simp only [calendarDays, List.length_map, List.length_range]
  rfl

theorem prevMonthDaysOf_le (year month : Nat) : prevMonthDaysOf year month ≤ 6 := by
  have := getFirstDayOfMonth_lt year month
  unfold prevMonthDaysOf
  split <;> omega

/-- **C10.** The `MonthView` grid has exactly 42 cells; the cells marked
`isCurrentMonth` are exactly days 1..daysInMonth of the displayed month in
order; they are preceded by `prevMonthDays = (firstDayOfWeek + 6) % 7`
trailing days of the previous month (the offset of the month's first weekday
from Monday, aligning the first row to a Monday-start week) and followed by
leading days 1, 2, … of the next month filling the remaining cells. -/
theorem calendarDays_spec (year month : Nat) (evMap : DateKey → List CalendarEvent) :
    (calendarDays year month evMap).length = 42
    ∧ ((calendarDays year month evMap).filter (fun c => c.isCurrentMonth)).map CalCell.date
        = (List.range (getDaysInMonth year month)).map (· + 1)
    ∧ prevMonthDaysOf year month = (getFirstDayOfMonth year month + 6) % 7
    ∧ ((calendarDays year month evMap).take (prevMonthDaysOf year month)).map CalCell.date
        = (List.range (prevMonthDaysOf year month)).map
            (fun j => getDaysInMonth (prevYearOf year month) (prevMonthOf month)
                      - prevMonthDaysOf year month + 1 + j)
    ∧ (∀ c ∈ (calendarDays year month evMap).take (prevMonthDaysOf year month),
        c.isCurrentMonth = false)
    ∧ ((calendarDays year month evMap).drop
          (prevMonthDaysOf year month + getDaysInMonth year month)).map CalCell.date
        = (List.range (42 - (prevMonthDaysOf year month + getDaysInMonth year month))).map
            (· + 1)
    ∧ (∀ c ∈ (calendarDays year month evMap).drop
          (prevMonthDaysOf year month + getDaysInMonth year month),
        c.isCurrentMonth = false) := by
  have hp := prevMonthDaysOf_le year month
  have hdim := getDaysInMonth_le year month
  have hw := getFirstDayOfMonth_lt year month
  have htake : (calendarDays year month evMap).take (prevMonthDaysOf year month)
      = (List.range (prevMonthDaysOf year month)).map (prevCellOf year month evMap) := by
    rw [calendarDays_eq year month evMap, List.append_assoc]
    apply List.take_left'
    simp
  have hdrop : (calendarDays year month evMap).drop
        (prevMonthDaysOf year month + getDaysInMonth year month)
      = (List.range (42 - (prevMonthDaysOf year month + getDaysInMonth year month))).map
          (nextCellOf year month evMap) := by
    rw [calendarDays_eq year month evMap]
    apply List.drop_left'
    simp
  refine ⟨?_, ?_, ?_, ?_, ?_, ?_, ?_⟩
  · rw [calendarDays_eq year month evMap]
    simp only [List.length_append, List.length_map, List.length_range]
    omega
  · rw [calendarDays_eq year month evMap, List.filter_append, List.filter_append]
    have h1 : ((List.range (prevMonthDaysOf year month)).map
        (prevCellOf year month evMap)).filter (fun c => c.isCurrentMonth) = [] := by
      refine List.filter_eq_nil_iff.mpr ?_
      intro c hc
      simp only [List.mem_map] at hc
      obtain ⟨j, _, rfl⟩ := hc
      simp [prevCellOf]
    have h2 : ((List.range (getDaysInMonth year month)).map
        (curCellOf year month evMap)).filter (fun c => c.isCurrentMonth)
        = (List.range (getDaysInMonth year month)).map (curCellOf year month evMap) := by
      refine List.filter_eq_self.mpr ?_
      intro c hc
      simp only [List.mem_map] at hc
      obtain ⟨j, _, rfl⟩ := hc
      simp [curCellOf]
    have h3 : ((List.range (42 - (prevMonthDaysOf year month + getDaysInMonth year month))).map
        (nextCellOf year month evMap)).filter (fun c => c.isCurrentMonth) = [] := by
      refine List.filter_eq_nil_iff.mpr ?_
      intro c hc
      simp only [List.mem_map] at hc
      obtain ⟨j, _, rfl⟩ := hc
      simp [nextCellOf]
    rw [h1, h2, h3, List.nil_append, List.append_nil, List.map_map]
    exact List.map_congr_left fun j _ => rfl
  · unfold prevMonthDaysOf
    split <;> omega
  · rw [htake, List.map_map]
    exact List.map_congr_left fun j _ => rfl
  · intro c hc
    rw [htake] at hc
    simp only [List.mem_map] at hc
    obtain ⟨j, _, rfl⟩ := hc
    rfl
  · rw [hdrop, List.map_map]
    exact List.map_congr_left fun j _ => rfl
  · intro c hc
    rw [hdrop] at hc
    simp only [List.mem_map] at hc
    obtain ⟨j, _, rfl⟩ := hc
    rfl

/-- **C2.** Once a `tool_call` or `skill_result` event has been emitted, the
next `text` event starts a brand-new assistant message whose content is
exactly the new chunk: the already-rendered messages, including any text
segment emitted before the tool/skill event, are preserved unchanged and the
new segment is appended after them. -/
theorem streamStep_new_segment_after_tool_or_skill (s : StreamState)
    (tc : ToolCallResult) (sr : SkillResult) (c : String) :
    (streamStep (streamStep s (SSEvent.tool_call tc)) (SSEvent.text c)).messages
      = (streamStep s (SSEvent.tool_call tc)).messages
        ++ [{ role := Role.assistant, content := c }]
    ∧ (streamStep (streamStep s (SSEvent.skill_result sr)) (SSEvent.text c)).messages
      = (streamStep s (SSEvent.skill_result sr)).messages
        ++ [{ role := Role.assistant, content := c }] := by
  constructor
  · simp only [streamStep, Option.isSome_some, Bool.true_or, if_pos]
    simp [updateLastAssistant, List.getLast?_concat]
  · simp only [streamStep, Option.isSome_some, Bool.or_true, if_pos]
    simp [updateLastAssistant, List.getLast?_concat]

theorem emitTurn_concat (acts : List TurnAction) :
    ∃ pre, emitTurn acts = pre ++ [TurnEvent.done] := by
  induction acts with
  | nil => exact ⟨[], rfl⟩
  | cons a rest ih =>
    obtain ⟨pre, hpre⟩ := ih
    cases a with
    | text c => exact ⟨TurnEvent.text c :: pre, by simp [emitTurn, hpre]⟩
    | tool tc => exact ⟨TurnEvent.tool_call tc :: pre, by simp [emitTurn, hpre]⟩
    | skill sr =>
      exact ⟨TurnEvent.skill_start sr.skill :: TurnEvent.skill_result sr :: pre,
        by simp [emitTurn, hpre]⟩

/-- **C1.** A turn whose model pass produces text, then a tool call, then
text streams exactly the ordered events `text`, `tool_call`, `text`
terminated by a single `done` event; every turn's stream ends in `done`. -/
theorem emitTurn_text_tool_text_done (t1 t2 : String) (tc : ToolCallResult) :
    emitTurn [TurnAction.text t1, TurnAction.tool tc, TurnAction.text t2]
      = [TurnEvent.text t1, TurnEvent.tool_call tc, TurnEvent.text t2, TurnEvent.done]
    ∧ ∀ acts : List TurnAction, (emitTurn acts).getLast? = some TurnEvent.done := by
  refine ⟨rfl, ?_⟩
  intro acts
  obtain ⟨pre, hpre⟩ := emitTurn_concat acts
  rw [hpre, List.getLast?_concat]

/-- **C3.** When only a start time is resolvable (no end time, no duration),
the event created by the `create_event` handler ends exactly 60 minutes
after it starts. -/
theorem createEvent_default_duration (st : Store) (id title : String) (start : Nat) :
    (createEvent st id title start none none).1.end_time
      = (createEvent st id title start none none).1.start_time + 60 := rfl

theorem detectConflicts_mem_overlap :
    ∀ (l : List CalendarEvent) (a b : CalendarEvent),
      (a, b) ∈ detectConflicts l → eventsOverlap a b = true := by
  intro l
  induction l with
  | nil => intro a b h; simp [detectConflicts] at h
  | cons e rest ih =>
    intro a b h
    rcases List.mem_append.mp h with h1 | h1
    · simp only [List.mem_map, List.mem_filter] at h1
      obtain ⟨f, ⟨_, hov⟩, heq⟩ := h1
      obtain ⟨rfl, rfl⟩ := Prod.mk.injEq .. ▸ heq
      exact hov
    · exact ih a b h1

theorem detectConflicts_mem_of_overlap :
    ∀ (l₁ : List CalendarEvent) (l₂ l₃ : List CalendarEvent) (a b : CalendarEvent),
      eventsOverlap a b = true →
      (a, b) ∈ detectConflicts (l₁ ++ a :: l₂ ++ b :: l₃) := by
  intro l₁
  induction l₁ with
  | nil =>
    intro l₂ l₃ a b hov
    simp only [List.nil_append, detectConflicts]
    refine List.mem_append.mpr (Or.inl ?_)
    refine List.mem_map.mpr ⟨b, ?_, rfl⟩
    refine List.mem_filter.mpr ⟨?_, hov⟩
    exact List.mem_append.mpr (Or.inr (List.mem_cons_self b l₃))
  | cons c l₁ ih =>
    intro l₂ l₃ a b hov
    simp only [List.cons_append, detectConflicts]
    exact List.mem_append.mpr (Or.inr (ih l₂ l₃ a b hov))

/-- **C4.** For events `a` before `b` in the list, `detect_conflicts`
reports the pair `(a, b)` iff `a.start < b.end ∧ b.start < a.end`
(half-open interval overlap); back-to-back events sharing an exact
boundary are never reported. -/
theorem detectConflicts_iff_overlap (l₁ l₂ l₃ : List CalendarEvent)
    (a b : CalendarEvent) :
    ((a, b) ∈ detectConflicts (l₁ ++ a :: l₂ ++ b :: l₃)
      ↔ (a.start_time < b.end_time ∧ b.start_time < a.end_time))
    ∧ (a.end_time = b.start_time → (a, b) ∉ detectConflicts [a, b]) := by
  constructor
  · constructor
    · intro h
      have := detectConflicts_mem_overlap _ a b h
      simpa [eventsOverlap] using this
    · intro h
      exact detectConflicts_mem_of_overlap l₁ l₂ l₃ a b (by simp [eventsOverlap]; omega)
  · intro hbb hmem
    have := detectConflicts_mem_overlap _ a b hmem
    simp [eventsOverlap] at this
    omega

/-- Witness for C4 at the spec's example: `{10:00-11:00}` and `{10:30-11:30}`
conflict, `{10:00-11:00}` and `{11:00-12:00}` (back-to-back) do not. -/
theorem detectConflicts_iff_overlap_witness :
    (({ id := "1", title := "a", start_time := 600, end_time := 660 },
      ({ id := "2", title := "b", start_time := 630, end_time := 690 } : CalendarEvent))
      ∈ detectConflicts
        [{ id := "1", title := "a", start_time := 600, end_time := 660 },
         { id := "2", title := "b", start_time := 630, end_time := 690 }])
    ∧ (({ id := "3", title := "c", start_time := 600, end_time := 660 },
        ({ id := "4", title := "d", start_time := 660, end_time := 720 } : CalendarEvent))
        ∉ detectConflicts
          [{ id := "3", title := "c", start_time := 600, end_time := 660 },
           { id := "4", title := "d", start_time := 660, end_time := 720 }]) :=
  ⟨((detectConflicts_iff_overlap [] [] []
      { id := "1", title := "a", start_time := 600, end_time := 660 }
      { id := "2", title := "b", start_time := 630, end_time := 690 }).1).mpr (by decide),
   (detectConflicts_iff_overlap [] [] []
      { id := "3", title := "c", start_time := 600, end_time := 660 }
      { id := "4", title := "d", start_time := 660, end_time := 720 }).2 (by decide)⟩

theorem scanGaps_start_ge (d R : Nat) :
    ∀ (evs : List CalendarEvent) (cursor : Nat) (s : Slot),
      s ∈ scanGaps d R cursor evs → cursor ≤ s.start := by
  intro evs
  induction evs with
  | nil =>
    intro cursor s hs
    simp only [scanGaps] at hs
    split at hs
    · rcases List.mem_singleton.mp hs with rfl; exact Nat.le_refl _
    · simp at hs
  | cons e rest ih =>
    intro cursor s hs
    simp only [scanGaps] at hs
    split at hs
    · rcases List.mem_cons.mp hs with rfl | hs
      · exact Nat.le_refl _
      · exact Nat.le_trans (Nat.le_max_left _ _) (ih _ s hs)
    · exact Nat.le_trans (Nat.le_max_left _ _) (ih _ s hs)

theorem scanGaps_width (d R : Nat) :
    ∀ (evs : List CalendarEvent) (cursor : Nat) (s : Slot),
      s ∈ scanGaps d R cursor evs → s.stop = s.start + d := by
  intro evs
  induction evs with
  | nil =>
    intro cursor s hs
    simp only [scanGaps] at hs
    split at hs
    · rcases List.mem_singleton.mp hs with rfl; rfl
    · simp at hs
  | cons e rest ih =>
    intro cursor s hs
    simp only [scanGaps] at hs
    split at hs
    · rcases List.mem_cons.mp hs with rfl | hs
      · rfl
      · exact ih _ s hs
    · exact ih _ s hs

theorem scanGaps_no_overlap (d R : Nat) :
    ∀ (evs : List CalendarEvent) (cursor : Nat),
      evs.Pairwise (fun a b => a.start_time ≤ b.start_time) →
      (∀ e ∈ evs, e.start_time ≤ e.end_time) →
      ∀ s ∈ scanGaps d R cursor evs, ∀ e ∈ evs,
        ¬(e.start_time < s.stop ∧ s.start < e.end_time) := by
  intro evs
  induction evs with
  | nil => intro cursor _ _ s _ e he; simp at he
  | cons f rest ih =>
    intro cursor hsorted hwf s hs e he
    have hfs : ∀ x ∈ rest, f.start_time ≤ x.start_time :=
      (List.pairwise_cons.mp hsorted).1
    have hrest : rest.Pairwise (fun a b => a.start_time ≤ b.start_time) :=
      (List.pairwise_cons.mp hsorted).2
    have hwff : f.start_time ≤ f.end_time := hwf f (List.mem_cons_self f rest)
    have hwfr : ∀ x ∈ rest, x.start_time ≤ x.end_time :=
      fun x hx => hwf x (List.mem_cons_of_mem f hx)
    simp only [scanGaps] at hs
    split at hs
    · rename_i hgap
      rcases List.mem_cons.mp hs with rfl | hs
      · rcases List.mem_cons.mp he with rfl | he
        · intro hcon
          dsimp only at hcon
          omega
        · have := hfs e he
          intro hcon
          dsimp only at hcon
          omega
      · rcases List.mem_cons.mp he with rfl | he
        · have hge := scanGaps_start_ge d R rest (max cursor e.end_time) s hs
          intro hcon
          omega
        · exact ih _ hrest hwfr s hs e he
    · rcases List.mem_cons.mp he with rfl | he
      · have hge := scanGaps_start_ge d R rest (max cursor e.end_time) s hs
        intro hcon
        omega
      · exact ih _ hrest hwfr s hs e he

theorem scanGaps_sorted (d R : Nat) :
    ∀ (evs : List CalendarEvent) (cursor : Nat),
      (∀ e ∈ evs, e.start_time ≤ e.end_time) →
      (scanGaps d R cursor evs).Pairwise (fun s t => s.stop ≤ t.start) := by
  intro evs
  induction evs with
  | nil =>
    intro cursor _
    simp only [scanGaps]
    split
    · exact List.pairwise_singleton _ _
    · exact List.Pairwise.nil
  | cons f rest ih =>
    intro cursor hwf
    have hwff : f.start_time ≤ f.end_time := hwf f (List.mem_cons_self f rest)
    have hwfr : ∀ x ∈ rest, x.start_time ≤ x.end_time :=
      fun x hx => hwf x (List.mem_cons_of_mem f hx)
    simp only [scanGaps]
    split
    · rename_i hgap
      refine List.Pairwise.cons ?_ (ih _ hwfr)
      intro t ht
      have hge := scanGaps_start_ge d R rest (max cursor f.end_time) t ht
      simp only
      omega
    · exact ih _ hwfr

theorem scanGaps_anchored (d R : Nat) :
    ∀ (evs : List CalendarEvent) (cursor : Nat) (s : Slot),
      s ∈ scanGaps d R cursor evs →
      s.start = cursor ∨ ∃ e ∈ evs, s.start = e.end_time := by
  intro evs
  induction evs with
  | nil =>
    intro cursor s hs
    simp only [scanGaps] at hs
    split at hs
    · rcases List.mem_singleton.mp hs with rfl; exact Or.inl rfl
    · simp at hs
  | cons f rest ih =>
    intro cursor s hs
    simp only [scanGaps] at hs
    have htail : s ∈ scanGaps d R (max cursor f.end_time) rest →
        s.start = cursor ∨ ∃ e ∈ f :: rest, s.start = e.end_time := by
      intro h
      rcases ih _ s h with hc | ⟨e, he, heq⟩
      · rcases Nat.le_total cursor f.end_time with hle | hle
        · exact Or.inr ⟨f, List.mem_cons_self f rest, by rw [hc, Nat.max_eq_right hle]⟩
        · exact Or.inl (by rw [hc, Nat.max_eq_left hle])
      · exact Or.inr ⟨e, List.mem_cons_of_mem f he, heq⟩
    split at hs
    · rcases List.mem_cons.mp hs with rfl | hs
      · exact Or.inl rfl
      · exact htail hs
    · exact htail hs

/-- **C5.** For well-formed events (`start ≤ end`, the data-model
invariant), every slot returned by `find_free_slots` is exactly `duration`
long, the slots are sorted earliest-first, no slot overlaps any existing
event, and each slot is anchored at the start of a gap (the range start or
the end of a busy region), never the full gap. -/
theorem findFreeSlots_spec (rangeStart rangeStop duration : Nat)
    (events : List CalendarEvent)
    (hwf : ∀ e ∈ events, e.start_time ≤ e.end_time) :
    (∀ s ∈ findFreeSlots rangeStart rangeStop duration events,
        s.stop = s.start + duration)
    ∧ (findFreeSlots rangeStart rangeStop duration events).Pairwise
        (fun s t => s.start ≤ t.start)
    ∧ (∀ s ∈ findFreeSlots rangeStart rangeStop duration events, ∀ e ∈ events,
        ¬(e.start_time < s.stop ∧ s.start < e.end_time))
    ∧ (∀ s ∈ findFreeSlots rangeStart rangeStop duration events,
        s.start = rangeStart ∨ ∃ e ∈ events, s.start = e.end_time) := by
  have hwf' : ∀ e ∈ sortLe startTimeLe events, e.start_time ≤ e.end_time :=
    fun e he => hwf e (mem_sortLe.mp he)
  have hsorted : (sortLe startTimeLe events).Pairwise
      (fun a b => a.start_time ≤ b.start_time) :=
    (pairwise_sortLe startTimeLe startTimeLe_trans startTimeLe_total events).imp
      (fun h => by simpa [startTimeLe] using h)
  refine ⟨?_, ?_, ?_, ?_⟩
  · intro s hs
    exact scanGaps_width duration rangeStop _ rangeStart s hs
  · refine (scanGaps_sorted duration rangeStop _ rangeStart hwf').imp_of_mem ?_
    intro s t hs ht hst
    have := scanGaps_width duration rangeStop _ rangeStart s hs
    omega
  · intro s hs e he
    exact scanGaps_no_overlap duration rangeStop _ rangeStart hsorted hwf' s hs e
      (mem_sortLe.mpr he)
  · intro s hs
    rcases scanGaps_anchored duration rangeStop _ rangeStart s hs with h | ⟨e, he, heq⟩
    · exact Or.inl h
    · exact Or.inr ⟨e, mem_sortLe.mp he, heq⟩

/-- Witness for C5 at the spec's example: range 09:00–17:00, duration 60
minutes, events 09:00–10:00 and 11:00–12:00 (times in minutes). -/
theorem findFreeSlots_spec_witness :
    (∀ e ∈ [exBusy1, exBusy2], e.start_time ≤ e.end_time)
    ∧ ((∀ s ∈ findFreeSlots 540 1020 60 [exBusy1, exBusy2], s.stop = s.start + 60)
      ∧ (findFreeSlots 540 1020 60 [exBusy1, exBusy2]).Pairwise
          (fun s t => s.start ≤ t.start)
      ∧ (∀ s ∈ findFreeSlots 540 1020 60 [exBusy1, exBusy2], ∀ e ∈ [exBusy1, exBusy2],
          ¬(e.start_time < s.stop ∧ s.start < e.end_time))
      ∧ (∀ s ∈ findFreeSlots 540 1020 60 [exBusy1, exBusy2],
          s.start = 540 ∨ ∃ e ∈ [exBusy1, exBusy2], s.start = e.end_time)) :=
  ⟨by decide, findFreeSlots_spec 540 1020 60 [exBusy1, exBusy2] (by decide)⟩

/-- The spec's `find_free_slots` example: the returned slots are anchored at
the gap starts 10:00 and 12:00 and are exactly one hour long, not the full
gaps. -/
theorem findFreeSlots_example :
    findFreeSlots 540 1020 60 [exBusy1, exBusy2]
      = [{ start := 600, stop := 660 }, { start := 720, stop := 780 }] := by decide

/-- **C6.** An undisambiguated weekday expression resolves to the nearest
occurrence of the target weekday strictly after the reference day: the
result is in the future, falls on the target weekday, and no earlier future
day does. -/
theorem nextWeekdayOccurrence_spec (refDay target : Nat) (ht : target < 7) :
    refDay < nextWeekdayOccurrence refDay target
    ∧ dayOfWeek (nextWeekdayOccurrence refDay target) = target
    ∧ ∀ n, refDay < n → dayOfWeek n = target →
        nextWeekdayOccurrence refDay target ≤ n := by
  unfold nextWeekdayOccurrence dayOfWeek
  refine ⟨?_, ?_, ?_⟩
  · split <;> omega
  · split <;> omega
  · intro n hn heq
    split <;> omega

/-- Witness for C6 at the spec's example: from Wednesday 2024-01-10, the
bare weekday "周一" (Monday, `getDay` 1) resolves to 2024-01-15, the next
Monday, never the past Monday 2024-01-08. -/
theorem nextWeekdayOccurrence_spec_witness :
    (1 : Nat) < 7
    ∧ (dayNumber 2024 0 10 < nextWeekdayOccurrence (dayNumber 2024 0 10) 1
      ∧ dayOfWeek (nextWeekdayOccurrence (dayNumber 2024 0 10) 1) = 1
      ∧ ∀ n, dayNumber 2024 0 10 < n → dayOfWeek n = 1 →
          nextWeekdayOccurrence (dayNumber 2024 0 10) 1 ≤ n) :=
  ⟨by decide, nextWeekdayOccurrence_spec (dayNumber 2024 0 10) 1 (by decide)⟩

/-- From Wednesday 2024-01-10 the bare "周一" resolves to 2024-01-15. -/
theorem nextWeekdayOccurrence_example :
    nextWeekdayOccurrence (dayNumber 2024 0 10) 1 = dayNumber 2024 0 15 := by decide

/-- **C7.** Deleting an existing event succeeds, and an immediately repeated
delete of the same id fails with `NotFoundError` (the second delete is an
error, not a no-op). -/
theorem deleteEvent_twice_notFound (st : Store) (id : String)
    (h : st.events.any (fun e => e.id == id) = true) :
    ∃ st', deleteEvent st id = Except.ok st'
      ∧ deleteEvent st' id = Except.error ApiError.NotFoundError := by
  refine ⟨{ events := st.events.filter (fun e => !(e.id == id)) }, ?_, ?_⟩
  · simp [deleteEvent, h]
  · have hno : (st.events.filter (fun e => !(e.id == id))).any
        (fun e => e.id == id) = false := by
      rw [List.any_eq_false]
      intro e he
      have := List.of_mem_filter he
      simp at this
      simp [this]
    simp [deleteEvent, hno]

/-- Witness for C7: deleting "e1" from `exStore` succeeds once and fails the
second time. -/
theorem deleteEvent_twice_notFound_witness :
    (exStore.events.any (fun e => e.id == "e1") = true)
    ∧ ∃ st', deleteEvent exStore "e1" = Except.ok st'
        ∧ deleteEvent st' "e1" = Except.error ApiError.NotFoundError :=
  ⟨by decide, deleteEvent_twice_notFound exStore "e1" (by decide)⟩

/-- **C8.** `SkillResult.success` is true iff every `abort`-policy step in
the execution record succeeded (so `continue`-policy failures never flip
it); when the first failing `abort` step is reached, execution stops and the
record is exactly the attempted steps up to and including that step. -/
theorem runSteps_success_policy (plan : List PlanStep) :
    ((runSteps plan).2 = true ↔ ∀ s ∈ (runSteps plan).1,
        s.policy = StepPolicy.abort → s.ok = true)
    ∧ ∀ pre s post, plan = pre ++ s :: post →
        (∀ t ∈ pre, t.policy = StepPolicy.abort → t.ok = true) →
        s.policy = StepPolicy.abort → s.ok = false →
        runSteps plan = (pre ++ [s], false) := by
  constructor
  · induction plan with
    | nil => simp [runSteps]
    | cons s rest ih =>
      cases hok : s.ok with
      | true =>
        simp only [runSteps, hok, if_pos]
        simp only [List.mem_cons]
        constructor
        · intro h2 x hx hpol
          rcases hx with rfl | hx
          · exact hok
          · exact ih.mp h2 x hx hpol
        · intro h2
          exact ih.mpr (fun x hx hpol => h2 x (Or.inr hx) hpol)
      | false =>
        cases hpol : s.policy with
        | abort =>
          simp only [runSteps, hok, Bool.false_eq_true, if_neg, not_false_iff, hpol]
          simp only [List.mem_singleton]
          constructor
          · intro h2; exact absurd h2 (by simp)
          · intro h2
            exact absurd (h2 s rfl hpol) (by simp [hok])
        | cont =>
          simp only [runSteps, hok, Bool.false_eq_true, if_neg, not_false_iff, hpol]
          simp only [List.mem_cons]
          constructor
          · intro h2 x hx hxpol
            rcases hx with rfl | hx
            · rw [hpol] at hxpol; exact absurd hxpol (by simp)
            · exact ih.mp h2 x hx hxpol
          · intro h2
            exact ih.mpr (fun x hx hxpol => h2 x (Or.inr hx) hxpol)
  · intro pre s post hplan hpre hpol hok
    subst hplan
    revert hpre
    induction pre with
    | nil =>
      intro _
      simp only [List.nil_append]
      simp [runSteps, hok, hpol]
    | cons t pre ih =>
      intro hpre
      have hpre' : ∀ u ∈ pre, u.policy = StepPolicy.abort → u.ok = true :=
        fun u hu => hpre u (List.mem_cons_of_mem t hu)
      have hrec := ih hpre'
      cases htok : t.ok with
      | true =>
        simp only [List.cons_append, runSteps, htok, if_pos]
        simp [hrec]
      | false =>
        cases htpol : t.policy with
        | abort => exact absurd (hpre t (List.mem_cons_self t pre) htpol) (by simp [htok])
        | cont =>
          simp only [List.cons_append, runSteps, htok, Bool.false_eq_true, if_neg,
            not_false_iff, htpol]
          simp [hrec]

/-- Witness for C8: the plan stops at the failing `abort` step; the record
is exactly the two attempted steps and overall success is `false`. -/
theorem runSteps_success_policy_witness :
    runSteps [exStep1, exStep2, exStep3] = ([exStep1, exStep2], false) :=
  (runSteps_success_policy [exStep1, exStep2, exStep3]).2 [exStep1] exStep2 [exStep3]
    rfl (by decide) rfl rfl
